import Mathlib

/-!
Verification of the permission-graph repository.

The repository stores a directed graph of identity and resource nodes
(node.py, edge.py) in a Graph object (graph.py) holding a node map keyed
by id and two adjacency indexes (outgoing edges keyed by source id,
incoming edges keyed by target id), each an insertion-ordered sequence.
Python dicts are modelled as insertion-ordered association lists, Python
sets as lists queried by membership, generators as the lists of their
yields, and raised exceptions as error values.
-/

inductive NodeType
  | identity
  | resource
deriving DecidableEq, Repr

inductive RoleType
  | owner
  | viewer
  | editor
deriving DecidableEq, Repr

inductive EdgeType
  | parent_of
  | has_role
deriving DecidableEq, Repr

/-- Node from node.py: a category, a free-form sub-type and a unique id. -/
structure Node where
  type : NodeType
  inner_type : String
  id : String
deriving DecidableEq, Repr

/-- Edge from edge.py: directed, typed; only the HasRoleEdge subclass carries
a role, modelled as an optional field that the two constructors below set. -/
structure Edge where
  source : Node
  target : Node
  type : EdgeType
  role : Option RoleType
deriving DecidableEq, Repr

/-- ParentOfEdge from edge.py. -/
def ParentOfEdge (parent child : Node) : Edge :=
  { source := parent, target := child, type := EdgeType.parent_of, role := none }

/-- HasRoleEdge from edge.py. -/
def HasRoleEdge (identity resource : Node) (role : RoleType) : Edge :=
  { source := identity, target := resource, type := EdgeType.has_role, role := some role }

/-- PermissionEntry from graph.py. -/
structure PermissionEntry where
  resource_id : String
  resource_type : String
  role : RoleType
deriving DecidableEq, Repr

/-- The exceptions the repository can raise: NodeNotFoundError (node.py),
the ValueError of add_edge, and the AttributeError Python would raise if a
HAS_ROLE edge without a role field reached iter_user_permissions. -/
inductive GraphError
  | nodeNotFound (node_id : String)
  | invalidEdge
  | attributeError
deriving DecidableEq, Repr

/-- Graph from graph.py: the node dict and the two adjacency indexes. -/
structure Graph where
  nodes : List (String × Node)
  out_edges : List (String × List Edge)
  in_edges : List (String × List Edge)
deriving DecidableEq, Repr

/-- The state Graph.__init__ produces. -/
def Graph.init : Graph :=
  { nodes := [], out_edges := [], in_edges := [] }

/-- Python dict lookup (self.nodes.get / the `in` test) on the node map. -/
def lookupNode : List (String × Node) → String → Option Node
  | [], _ => none
  | (k, v) :: rest, node_id => if k = node_id then some v else lookupNode rest node_id

/-- Python dict .get(node_id, []) on an adjacency index. -/
def lookupEdges : List (String × List Edge) → String → List Edge
  | [], _ => []
  | (k, es) :: rest, node_id => if k = node_id then es else lookupEdges rest node_id

/-- defaultdict(list) access followed by .append(e): appends to the bucket of
the given key, creating the bucket at the end of the dict when absent. -/
def appendEdge : List (String × List Edge) → String → Edge → List (String × List Edge)
  | [], k, e => [(k, [e])]
  | (k1, es) :: rest, k, e =>
      if k1 = k then (k1, es ++ [e]) :: rest else (k1, es) :: appendEdge rest k e

/-- Graph.add_node: insert only when the id is absent, silently keep the
stored node otherwise. -/
def Graph.add_node (g : Graph) (node : Node) : Graph :=
  if lookupNode g.nodes node.id = none then
    { g with nodes := g.nodes ++ [(node.id, node)] }
  else g

/-- Graph.get_node: lookup by id, none when absent. -/
def Graph.get_node (g : Graph) (node_id : String) : Option Node :=
  lookupNode g.nodes node_id

/-- Graph.add_edge: raise ValueError when either endpoint id is not a stored
node (before touching the indexes), otherwise append the edge to the
outgoing bucket of its source and the incoming bucket of its target.
The returned Graph is the state of the object after the call. -/
def Graph.add_edge (g : Graph) (edge : Edge) : Graph × Option GraphError :=
  if lookupNode g.nodes edge.source.id = none ∨ lookupNode g.nodes edge.target.id = none then
    (g, some GraphError.invalidEdge)
  else
    ({ g with out_edges := appendEdge g.out_edges edge.source.id edge,
              in_edges := appendEdge g.in_edges edge.target.id edge }, none)

/-- Graph.iter_out_edges: all outgoing edges of a node, insertion order. -/
def Graph.iter_out_edges (g : Graph) (node_id : String) : List Edge :=
  lookupEdges g.out_edges node_id

/-- Graph.iter_in_edges: all incoming edges of a node, insertion order. -/
def Graph.iter_in_edges (g : Graph) (node_id : String) : List Edge :=
  lookupEdges g.in_edges node_id

/-- Graph.iter_children: targets of the outgoing PARENT_OF edges. -/
def Graph.iter_children (g : Graph) (node_id : String) : List Node :=
  ((g.iter_out_edges node_id).filter (fun e => e.type == EdgeType.parent_of)).map Edge.target

/-- Graph._iter_descendants is unbounded recursion in Python; it is embedded
with a fuel argument counting the recursion depth still allowed. -/
def descendantsFuel (g : Graph) : Nat → String → List Node
  | 0, _ => []
  | fuel + 1, node_id =>
      (g.iter_children node_id).flatMap (fun child => child :: descendantsFuel g fuel child.id)

/-- Graph._iter_descendants: for each child, yield it, then recurse into it.
On a hierarchy without cycles a recursion depth of one more than the number
of stored nodes is never reached, so the fuel below is sufficient; this is
proved by the descendants unfolding theorem. -/
def Graph._iter_descendants (g : Graph) (node_id : String) : List Node :=
  descendantsFuel g (g.nodes.length + 1) node_id

/-- Graph.iter_parents: sources of the incoming PARENT_OF edges. -/
def Graph.iter_parents (g : Graph) (node_id : String) : List Node :=
  ((g.iter_in_edges node_id).filter (fun e => e.type == EdgeType.parent_of)).map Edge.source

/-- The body of the inner for-loop of iter_resource_hierarchy: walk the
parents of the current node, skipping ids already in the visited set,
adding the rest to visited, yielding them and collecting their ids for the
queue. Returns (yields, new visited, ids to enqueue). -/
def visitParents : List Node → List String → List Node × List String × List String
  | [], visited => ([], visited, [])
  | parent :: rest, visited =>
      if parent.id ∈ visited then visitParents rest visited
      else
        let r := visitParents rest (parent.id :: visited)
        (parent :: r.1, r.2.1, parent.id :: r.2.2)

/-- The while-loop of iter_resource_hierarchy, with a fuel argument counting
the iterations still allowed. -/
def bfsLoop (g : Graph) : Nat → List String → List String → List Node
  | 0, _, _ => []
  | fuel + 1, visited, queue =>
      match queue with
      | [] => []
      | current :: rest =>
          let r := visitParents (g.iter_parents current) visited
          r.1 ++ bfsLoop g fuel r.2.1 (rest ++ r.2.2)

/-- The distinct source ids occurring anywhere in the incoming index: every
id the BFS can ever add to its visited set. -/
def inSources (g : Graph) : List String :=
  ((g.in_edges.flatMap (fun p => p.2)).map (fun e => e.source.id)).dedup

/-- Graph.iter_resource_hierarchy: BFS upwards over PARENT_OF edges with a
visited set. The loop runs at most one iteration per enqueued id and every
enqueued id beyond the start is a fresh member of inSources, so the fuel
below is sufficient; this is proved by the termination theorem. -/
def Graph.iter_resource_hierarchy (g : Graph) (resource_id : String) : List Node :=
  bfsLoop g ((inSources g).length + 1) [] [resource_id]

/-- The for-loop of iter_user_permissions over the outgoing edges of the
identity: skip non-HAS_ROLE edges; for a HAS_ROLE edge read its role (an
edge of that type lacking the field would raise AttributeError), yield the
direct entry and one inherited entry per descendant of the target. -/
def permLoop (g : Graph) : List Edge → Except GraphError (List PermissionEntry)
  | [] => Except.ok []
  | edge :: rest =>
      if edge.type == EdgeType.has_role then
        match edge.role with
        | some role =>
            match permLoop g rest with
            | Except.ok tail =>
                Except.ok
                  (({ resource_id := edge.target.id,
                      resource_type := edge.target.inner_type,
                      role := role }
                    :: (g._iter_descendants edge.target.id).map
                        (fun d => { resource_id := d.id, resource_type := d.inner_type,
                                    role := role })) ++ tail)
            | Except.error err => Except.error err
        | none => Except.error GraphError.attributeError
      else permLoop g rest

/-- Graph.iter_user_permissions: NodeNotFoundError when the identity id is
not a stored node, otherwise the permission entries produced by the loop
over its outgoing edges. -/
def Graph.iter_user_permissions (g : Graph) (node_identity_id : String) :
    Except GraphError (List PermissionEntry) :=
  match g.get_node node_identity_id with
  | none => Except.error (GraphError.nodeNotFound node_identity_id)
  | some _ => permLoop g (g.iter_out_edges node_identity_id)

/-- Resource node Org of the worked examples of the spec. -/
def orgN : Node := { type := NodeType.resource, inner_type := "Organization", id := "Org" }

/-- Resource node F1. -/
def f1N : Node := { type := NodeType.resource, inner_type := "Folder", id := "F1" }

/-- Resource node F2. -/
def f2N : Node := { type := NodeType.resource, inner_type := "Folder", id := "F2" }

/-- Resource node F5. -/
def f5N : Node := { type := NodeType.resource, inner_type := "Folder", id := "F5" }

/-- Resource node F6. -/
def f6N : Node := { type := NodeType.resource, inner_type := "Folder", id := "F6" }

/-- Identity node U. -/
def userN : Node := { type := NodeType.identity, inner_type := "User", id := "U" }

/-- Resource node GP of the multi-parent example. -/
def gpN : Node := { type := NodeType.resource, inner_type := "Folder", id := "GP" }

/-- Resource node P1. -/
def p1N : Node := { type := NodeType.resource, inner_type := "Folder", id := "P1" }

/-- Resource node P2. -/
def p2N : Node := { type := NodeType.resource, inner_type := "Folder", id := "P2" }

/-- Resource node X. -/
def xN : Node := { type := NodeType.resource, inner_type := "Folder", id := "X" }

/-- The graph state after a successful or failed add_edge call. -/
def addE (g : Graph) (e : Edge) : Graph :=
  (g.add_edge e).1

/-- The chain hierarchy Org to F1 to F5 to F6 with identity U owning F1,
built through the construction API. -/
def chainG : Graph :=
  ((((Graph.init.add_node orgN).add_node f1N).add_node f5N).add_node f6N).add_node userN
    |> (addE · (ParentOfEdge orgN f1N))
    |> (addE · (ParentOfEdge f1N f5N))
    |> (addE · (ParentOfEdge f5N f6N))
    |> (addE · (HasRoleEdge userN f1N RoleType.owner))

/-- The tree Org with children F1 and F2, F1 with child F5, built through
the construction API. -/
def treeG : Graph :=
  (((Graph.init.add_node orgN).add_node f1N).add_node f2N).add_node f5N
    |> (addE · (ParentOfEdge orgN f1N))
    |> (addE · (ParentOfEdge orgN f2N))
    |> (addE · (ParentOfEdge f1N f5N))

/-- The diamond: GP is parent of P1 and P2, both parents of X, built through
the construction API. -/
def diamondG : Graph :=
  (((Graph.init.add_node gpN).add_node p1N).add_node p2N).add_node xN
    |> (addE · (ParentOfEdge gpN p1N))
    |> (addE · (ParentOfEdge gpN p2N))
    |> (addE · (ParentOfEdge p1N xN))
    |> (addE · (ParentOfEdge p2N xN))

example : (chainG.iter_resource_hierarchy "F6").map Node.id = ["F5", "F1", "Org"] := by decide
example : (diamondG.iter_resource_hierarchy "X").map Node.id = ["P1", "P2", "GP"] := by decide
example : (treeG._iter_descendants "Org").map Node.id = ["F1", "F5", "F2"] := by decide
example : chainG.iter_user_permissions "U" =
    Except.ok [{ resource_id := "F1", resource_type := "Folder", role := RoleType.owner },
               { resource_id := "F5", resource_type := "Folder", role := RoleType.owner },
               { resource_id := "F6", resource_type := "Folder", role := RoleType.owner }] := by
  rfl
example : chainG.iter_user_permissions "ghost" =
    Except.error (GraphError.nodeNotFound "ghost") := by rfl
example : chainG.iter_user_permissions "Org" = Except.ok [] := by rfl
example : chainG.iter_resource_hierarchy "Org" = [] := by decide

theorem lookupNode_cons (k1 : String) (v1 : Node) (rest : List (String × Node)) (k : String) :
    lookupNode ((k1, v1) :: rest) k = if k1 = k then some v1 else lookupNode rest k := rfl

theorem lookupEdges_cons (k1 : String) (es : List Edge) (rest : List (String × List Edge))
    (k : String) :
    lookupEdges ((k1, es) :: rest) k = if k1 = k then es else lookupEdges rest k := rfl

theorem appendEdge_cons (k1 : String) (es : List Edge) (rest : List (String × List Edge))
    (k : String) (e : Edge) :
    appendEdge ((k1, es) :: rest) k e =
      if k1 = k then (k1, es ++ [e]) :: rest else (k1, es) :: appendEdge rest k e := rfl

theorem lookupNode_append_same (l : List (String × Node)) (k : String) (v : Node)
    (h : lookupNode l k = none) : lookupNode (l ++ [(k, v)]) k = some v := by
  induction l with
  | nil => simp [lookupNode]
  | cons p rest ih =>
      obtain ⟨k1, v1⟩ := p
      rw [lookupNode_cons] at h
      by_cases hk : k1 = k
      · rw [if_pos hk] at h
        exact absurd h (by simp)
      · rw [if_neg hk] at h
        rw [List.cons_append, lookupNode_cons, if_neg hk]
        exact ih h

theorem lookupNode_append_of_isSome (l l2 : List (String × Node)) (k : String)
    (h : (lookupNode l k).isSome) : lookupNode (l ++ l2) k = lookupNode l k := by
  induction l with
  | nil => simp [lookupNode] at h
  | cons p rest ih =>
      obtain ⟨k1, v1⟩ := p
      rw [lookupNode_cons] at h ⊢
      rw [List.cons_append, lookupNode_cons]
      by_cases hk : k1 = k
      · rw [if_pos hk, if_pos hk]
      · rw [if_neg hk, if_neg hk]
        rw [if_neg hk] at h
        exact ih h

theorem lookupNode_isSome_mem (l : List (String × Node)) (k : String)
    (h : (lookupNode l k).isSome) : k ∈ l.map Prod.fst := by
  induction l with
  | nil => simp [lookupNode] at h
  | cons p rest ih =>
      obtain ⟨k1, v1⟩ := p
      rw [lookupNode_cons] at h
      by_cases hk : k1 = k
      · simp [hk]
      · rw [if_neg hk] at h
        simp [ih h]

theorem lookupNode_eq_none_not_mem (l : List (String × Node)) (k : String)
    (h : lookupNode l k = none) : k ∉ l.map Prod.fst := by
  induction l with
  | nil => simp
  | cons p rest ih =>
      obtain ⟨k1, v1⟩ := p
      rw [lookupNode_cons] at h
      by_cases hk : k1 = k
      · rw [if_pos hk] at h
        exact absurd h (by simp)
      · rw [if_neg hk] at h
        simp only [List.map_cons, List.mem_cons]
        rintro (h1 | h1)
        · exact hk h1.symm
        · exact ih h h1

theorem lookupEdges_appendEdge (idx : List (String × List Edge)) (k : String) (e : Edge)
    (x : String) :
    lookupEdges (appendEdge idx k e) x =
      if x = k then lookupEdges idx x ++ [e] else lookupEdges idx x := by
  induction idx with
  | nil =>
      by_cases hx : x = k
      · simp [appendEdge, lookupEdges, hx]
      · rw [if_neg hx]
        simp [appendEdge, lookupEdges, Ne.symm hx]
  | cons p rest ih =>
      obtain ⟨k1, es⟩ := p
      rw [appendEdge_cons]
      by_cases hk : k1 = k
      · subst hk
        rw [if_pos rfl, lookupEdges_cons, lookupEdges_cons]
        by_cases hx : k1 = x
        · simp [hx]
        · rw [if_neg hx, if_neg hx, if_neg (fun h => hx (Eq.symm h))]
      · rw [if_neg hk, lookupEdges_cons, lookupEdges_cons]
        by_cases hx : k1 = x
        · have hxk : ¬ x = k := fun h => hk (hx.trans h)
          rw [if_pos hx, if_pos hx, if_neg hxk]
        · rw [if_neg hx, if_neg hx]
          exact ih

theorem lookupEdges_mem_pair (idx : List (String × List Edge)) (k : String) (e : Edge)
    (h : e ∈ lookupEdges idx k) : ∃ p ∈ idx, p.1 = k ∧ e ∈ p.2 := by
  induction idx with
  | nil => simp [lookupEdges] at h
  | cons p rest ih =>
      obtain ⟨k1, es⟩ := p
      rw [lookupEdges_cons] at h
      by_cases hk : k1 = k
      · rw [if_pos hk] at h
        exact ⟨(k1, es), List.mem_cons_self _ _, hk, h⟩
      · rw [if_neg hk] at h
        obtain ⟨q, hq, hq1, hq2⟩ := ih h
        exact ⟨q, List.mem_cons_of_mem _ hq, hq1, hq2⟩

theorem lookupEdges_eq_nil (idx : List (String × List Edge)) (k : String)
    (h : ∀ p ∈ idx, p.1 ≠ k) : lookupEdges idx k = [] := by
  induction idx with
  | nil => rfl
  | cons p rest ih =>
      obtain ⟨k1, es⟩ := p
      have hk : k1 ≠ k := h (k1, es) (List.mem_cons_self _ _)
      rw [lookupEdges_cons, if_neg hk]
      exact ih fun q hq => h q (List.mem_cons_of_mem _ hq)

theorem appendEdge_pres (P : String → Edge → Prop) (idx : List (String × List Edge))
    (k : String) (e : Edge) (h : ∀ p ∈ idx, ∀ x ∈ p.2, P p.1 x) (hk : P k e) :
    ∀ p ∈ appendEdge idx k e, ∀ x ∈ p.2, P p.1 x := by
  induction idx with
  | nil =>
      intro p hp x hx
      simp only [appendEdge, List.mem_singleton] at hp
      subst hp
      simp only [List.mem_singleton] at hx
      subst hx
      exact hk
  | cons q rest ih =>
      obtain ⟨k1, es⟩ := q
      rw [appendEdge_cons]
      by_cases hk1 : k1 = k
      · rw [if_pos hk1]
        intro p hp x hx
        rcases List.mem_cons.mp hp with hp | hp
        · subst hp
          rcases List.mem_append.mp hx with hx | hx
          · exact h (k1, es) (List.mem_cons_self _ _) x hx
          · rw [List.mem_singleton] at hx
            subst hx
            rw [hk1]
            exact hk
        · exact h p (List.mem_cons_of_mem _ hp) x hx
      · rw [if_neg hk1]
        intro p hp x hx
        rcases List.mem_cons.mp hp with hp | hp
        · subst hp
          exact h (k1, es) (List.mem_cons_self _ _) x hx
        · exact ih (fun q hq => h q (List.mem_cons_of_mem _ hq)) p hp x hx

theorem appendEdge_keys_mem (idx : List (String × List Edge)) (k : String) (e : Edge)
    (x : String) :
    x ∈ (appendEdge idx k e).map Prod.fst ↔ x ∈ idx.map Prod.fst ∨ x = k := by
  induction idx with
  | nil => simp [appendEdge]
  | cons p rest ih =>
      obtain ⟨k1, es⟩ := p
      rw [appendEdge_cons]
      by_cases hk : k1 = k
      · rw [if_pos hk]
        subst hk
        simp only [List.map_cons, List.mem_cons]
        tauto
      · rw [if_neg hk]
        simp only [List.map_cons, List.mem_cons, ih]
        tauto

theorem appendEdge_keys_nodup (idx : List (String × List Edge)) (k : String) (e : Edge)
    (h : (idx.map Prod.fst).Nodup) : ((appendEdge idx k e).map Prod.fst).Nodup := by
  induction idx with
  | nil => simp [appendEdge]
  | cons p rest ih =>
      obtain ⟨k1, es⟩ := p
      simp only [List.map_cons, List.nodup_cons] at h
      rw [appendEdge_cons]
      by_cases hk : k1 = k
      · rw [if_pos hk]
        simp only [List.map_cons, List.nodup_cons]
        exact ⟨h.1, h.2⟩
      · rw [if_neg hk]
        simp only [List.map_cons, List.nodup_cons]
        refine ⟨?_, ih h.2⟩
        rw [appendEdge_keys_mem]
        rintro (hmem | hmem)
        · exact h.1 hmem
        · exact hk hmem

theorem appendEdge_flat_perm (idx : List (String × List Edge)) (k : String) (e : Edge) :
    ((appendEdge idx k e).flatMap Prod.snd).Perm ((idx.flatMap Prod.snd) ++ [e]) := by
  induction idx with
  | nil => simp [appendEdge]
  | cons p rest ih =>
      obtain ⟨k1, es⟩ := p
      rw [appendEdge_cons]
      by_cases hk : k1 = k
      · rw [if_pos hk]
        simp only [List.flatMap_cons]
        rw [List.append_assoc, List.append_assoc]
        exact List.Perm.append_left es List.perm_append_comm
      · rw [if_neg hk]
        simp only [List.flatMap_cons]
        rw [List.append_assoc]
        exact List.Perm.append_left es ih

/-- Every bucket of the outgoing index holds edges filed under their source
id, with both endpoints stored. -/
def OutFiled (g : Graph) : Prop :=
  ∀ p ∈ g.out_edges, ∀ e ∈ p.2,
    e.source.id = p.1
    ∧ (lookupNode g.nodes e.source.id).isSome
    ∧ (lookupNode g.nodes e.target.id).isSome

/-- Every bucket of the incoming index holds edges filed under their target
id, with both endpoints stored. -/
def InFiled (g : Graph) : Prop :=
  ∀ p ∈ g.in_edges, ∀ e ∈ p.2,
    e.target.id = p.1
    ∧ (lookupNode g.nodes e.source.id).isSome
    ∧ (lookupNode g.nodes e.target.id).isSome

/-- The consistency invariant of the two adjacency indexes: unique keys in
every dict, edges filed under the right key with stored endpoints, and the
same multiset of edges in the outgoing and the incoming index. -/
def GraphInv (g : Graph) : Prop :=
  (g.nodes.map Prod.fst).Nodup
  ∧ (g.out_edges.map Prod.fst).Nodup
  ∧ (g.in_edges.map Prod.fst).Nodup
  ∧ OutFiled g
  ∧ InFiled g
  ∧ (g.out_edges.flatMap Prod.snd).Perm (g.in_edges.flatMap Prod.snd)

/-- The graph states reachable through the construction API: a fresh graph
followed by any sequence of add_node and add_edge calls. -/
inductive Reachable : Graph → Prop
  | base : Reachable Graph.init
  | node (g : Graph) (n : Node) : Reachable g → Reachable (g.add_node n)
  | edge (g : Graph) (e : Edge) : Reachable g → Reachable (g.add_edge e).1

theorem graphInv_init : GraphInv Graph.init := by
  refine ⟨?_, ?_, ?_, ?_, ?_, ?_⟩ <;> simp [Graph.init, OutFiled, InFiled]

theorem lookupNode_isSome_add_node (g : Graph) (n : Node) (k : String)
    (h : (lookupNode g.nodes k).isSome) : (lookupNode (g.add_node n).nodes k).isSome := by
  unfold Graph.add_node
  by_cases hn : lookupNode g.nodes n.id = none
  · rw [if_pos hn]
    simpa [lookupNode_append_of_isSome _ _ _ h] using h
  · rw [if_neg hn]
    exact h

theorem graphInv_add_node (g : Graph) (n : Node) (h : GraphInv g) :
    GraphInv (g.add_node n) := by
  obtain ⟨h1, h2, h3, h4, h5, h6⟩ := h
  unfold Graph.add_node
  by_cases hn : lookupNode g.nodes n.id = none
  · rw [if_pos hn]
    refine ⟨?_, h2, h3, ?_, ?_, h6⟩
    · rw [List.map_append, List.nodup_append]
      refine ⟨h1, by simp, ?_⟩
      intro a ha hb
      simp only [List.map_cons, List.map_nil, List.mem_singleton] at hb
      subst hb
      exact lookupNode_eq_none_not_mem _ _ hn ha
    · intro p hp e he
      obtain ⟨he1, he2, he3⟩ := h4 p hp e he
      exact ⟨he1, by rw [lookupNode_append_of_isSome _ _ _ he2]; exact he2,
             by rw [lookupNode_append_of_isSome _ _ _ he3]; exact he3⟩
    · intro p hp e he
      obtain ⟨he1, he2, he3⟩ := h5 p hp e he
      exact ⟨he1, by rw [lookupNode_append_of_isSome _ _ _ he2]; exact he2,
             by rw [lookupNode_append_of_isSome _ _ _ he3]; exact he3⟩
  · rw [if_neg hn]
    exact ⟨h1, h2, h3, h4, h5, h6⟩

theorem graphInv_add_edge (g : Graph) (e : Edge) (h : GraphInv g) :
    GraphInv (g.add_edge e).1 := by
  obtain ⟨h1, h2, h3, h4, h5, h6⟩ := h
  unfold Graph.add_edge
  by_cases hc : lookupNode g.nodes e.source.id = none ∨ lookupNode g.nodes e.target.id = none
  · rw [if_pos hc]
    exact ⟨h1, h2, h3, h4, h5, h6⟩
  · rw [if_neg hc]
    push_neg at hc
    have hs : (lookupNode g.nodes e.source.id).isSome :=
      Option.ne_none_iff_isSome.mp hc.1
    have ht : (lookupNode g.nodes e.target.id).isSome :=
      Option.ne_none_iff_isSome.mp hc.2
    refine ⟨h1, appendEdge_keys_nodup _ _ _ h2, appendEdge_keys_nodup _ _ _ h3, ?_, ?_, ?_⟩
    · show ∀ p ∈ appendEdge g.out_edges e.source.id e, ∀ x ∈ p.2,
        x.source.id = p.1
        ∧ (lookupNode g.nodes x.source.id).isSome
        ∧ (lookupNode g.nodes x.target.id).isSome
      exact appendEdge_pres
        (fun k x => x.source.id = k
          ∧ (lookupNode g.nodes x.source.id).isSome
          ∧ (lookupNode g.nodes x.target.id).isSome) _ _ _ h4 ⟨rfl, hs, ht⟩
    · show ∀ p ∈ appendEdge g.in_edges e.target.id e, ∀ x ∈ p.2,
        x.target.id = p.1
        ∧ (lookupNode g.nodes x.source.id).isSome
        ∧ (lookupNode g.nodes x.target.id).isSome
      exact appendEdge_pres
        (fun k x => x.target.id = k
          ∧ (lookupNode g.nodes x.source.id).isSome
          ∧ (lookupNode g.nodes x.target.id).isSome) _ _ _ h5 ⟨rfl, hs, ht⟩
    · show ((appendEdge g.out_edges e.source.id e).flatMap Prod.snd).Perm
        ((appendEdge g.in_edges e.target.id e).flatMap Prod.snd)
      refine (appendEdge_flat_perm g.out_edges e.source.id e).trans ?_
      refine (List.Perm.append h6 (List.Perm.refl [e])).trans ?_
      exact (appendEdge_flat_perm g.in_edges e.target.id e).symm

theorem chainG_reachable : Reachable chainG := by
  unfold chainG addE
  exact .edge _ _ (.edge _ _ (.edge _ _ (.edge _ _
    (.node _ _ (.node _ _ (.node _ _ (.node _ _ (.node _ _ .base))))))))

/-- C9: after any sequence of add_node and add_edge calls the two adjacency
indexes stay consistent: dict keys are unique, every stored edge sits in the
bucket of its source id in the outgoing index and of its target id in the
incoming index, every indexed endpoint id names a stored node, and the
multiset of edges of the two indexes is the same. -/
theorem adjacency_indexes_consistent (g : Graph) (h : Reachable g) : GraphInv g := by
  induction h with
  | base => exact graphInv_init
  | node g n _ ih => exact graphInv_add_node g n ih
  | edge g e _ ih => exact graphInv_add_edge g e ih

/-- Witness for C9: the invariant holds at the concrete graph built through
the construction API. -/
theorem adjacency_indexes_consistent_witness : GraphInv chainG :=
  adjacency_indexes_consistent chainG chainG_reachable

/-- C6: inserting a node whose id is already stored is a no-op that keeps
the originally stored value, and add_node is idempotent. -/
theorem add_node_idempotent (g : Graph) (n : Node) :
    (∀ m, lookupNode g.nodes n.id = some m →
      g.add_node n = g ∧ lookupNode (g.add_node n).nodes n.id = some m)
    ∧ (g.add_node n).add_node n = g.add_node n := by
  constructor
  · intro m hm
    have hno : ¬ lookupNode g.nodes n.id = none := by simp [hm]
    unfold Graph.add_node
    rw [if_neg hno]
    exact ⟨rfl, hm⟩
  · have hsome : (lookupNode (g.add_node n).nodes n.id).isSome := by
      unfold Graph.add_node
      by_cases h : lookupNode g.nodes n.id = none
      · rw [if_pos h]
        show (lookupNode (g.nodes ++ [(n.id, n)]) n.id).isSome
        rw [lookupNode_append_same _ _ _ h]
        rfl
      · rw [if_neg h]
        exact Option.ne_none_iff_isSome.mp h
    have hne : ¬ lookupNode (g.add_node n).nodes n.id = none :=
      Option.ne_none_iff_isSome.mpr hsome
    show (if lookupNode (g.add_node n).nodes n.id = none then
        { g.add_node n with nodes := (g.add_node n).nodes ++ [(n.id, n)] }
      else g.add_node n) = g.add_node n
    rw [if_neg hne]

/-- Witness for C6 at a concrete graph and node. -/
theorem add_node_idempotent_witness :
    (chainG.add_node orgN = chainG
      ∧ lookupNode (chainG.add_node orgN).nodes orgN.id = some orgN)
    ∧ (chainG.add_node orgN).add_node orgN = chainG.add_node orgN :=
  ⟨(add_node_idempotent chainG orgN).1 orgN (by decide),
   (add_node_idempotent chainG orgN).2⟩

/-- C3: add_edge with a missing endpoint fails with the invalid-edge error
and leaves the whole state unchanged; with both endpoints stored it appends
the edge to the source bucket of the outgoing index and the target bucket
of the incoming index, leaving every other bucket and the node map as they
were. -/
theorem add_edge_all_or_nothing (g : Graph) (edge : Edge) :
    if lookupNode g.nodes edge.source.id = none ∨ lookupNode g.nodes edge.target.id = none then
      g.add_edge edge = (g, some GraphError.invalidEdge)
    else
      (g.add_edge edge).2 = none
      ∧ (g.add_edge edge).1.nodes = g.nodes
      ∧ (∀ x, (g.add_edge edge).1.iter_out_edges x =
          if x = edge.source.id then g.iter_out_edges x ++ [edge] else g.iter_out_edges x)
      ∧ (∀ x, (g.add_edge edge).1.iter_in_edges x =
          if x = edge.target.id then g.iter_in_edges x ++ [edge] else g.iter_in_edges x) := by
  by_cases hc : lookupNode g.nodes edge.source.id = none
      ∨ lookupNode g.nodes edge.target.id = none
  · rw [if_pos hc]
    unfold Graph.add_edge
    rw [if_pos hc]
  · rw [if_neg hc]
    refine ⟨?_, ?_, ?_, ?_⟩
    · show (Graph.add_edge g edge).2 = none
      unfold Graph.add_edge
      rw [if_neg hc]
    · show (Graph.add_edge g edge).1.nodes = g.nodes
      unfold Graph.add_edge
      rw [if_neg hc]
    · intro x
      show (Graph.add_edge g edge).1.iter_out_edges x = _
      unfold Graph.add_edge
      rw [if_neg hc]
      show lookupEdges (appendEdge g.out_edges edge.source.id edge) x = _
      rw [lookupEdges_appendEdge]
      rfl
    · intro x
      show (Graph.add_edge g edge).1.iter_in_edges x = _
      unfold Graph.add_edge
      rw [if_neg hc]
      show lookupEdges (appendEdge g.in_edges edge.target.id edge) x = _
      rw [lookupEdges_appendEdge]
      rfl

/-- Every bucket key of the outgoing index is a stored node id. -/
def OutKeysStored (g : Graph) : Prop :=
  ∀ p ∈ g.out_edges, (lookupNode g.nodes p.1).isSome

/-- Every bucket key of the incoming index is a stored node id. -/
def InKeysStored (g : Graph) : Prop :=
  ∀ p ∈ g.in_edges, (lookupNode g.nodes p.1).isSome

/-- C8: the pure read operations are total and present their sequences in
insertion order: on an id that names no stored node they all produce the
empty sequence rather than an error, and every successfully inserted edge
is read back appended at the end of the out-sequence of its source id and
the in-sequence of its target id, with the PARENT_OF-filtered child and
parent endpoints appended in the same relative order. -/
theorem read_paths_total (g : Graph) (node_id : String)
    (hout : OutKeysStored g) (hin : InKeysStored g) (h : g.get_node node_id = none) :
    (g.iter_out_edges node_id = [] ∧ g.iter_in_edges node_id = []
      ∧ g.iter_children node_id = [] ∧ g.iter_parents node_id = [])
    ∧ (∀ edge : Edge, (g.add_edge edge).2 = none →
        (g.add_edge edge).1.iter_out_edges edge.source.id
            = g.iter_out_edges edge.source.id ++ [edge]
        ∧ (g.add_edge edge).1.iter_in_edges edge.target.id
            = g.iter_in_edges edge.target.id ++ [edge]
        ∧ (edge.type = EdgeType.parent_of →
            (g.add_edge edge).1.iter_children edge.source.id
              = g.iter_children edge.source.id ++ [edge.target]
            ∧ (g.add_edge edge).1.iter_parents edge.target.id
              = g.iter_parents edge.target.id ++ [edge.source])) := by
  have hn : lookupNode g.nodes node_id = none := h
  have ho : g.iter_out_edges node_id = [] := by
    show lookupEdges g.out_edges node_id = []
    refine lookupEdges_eq_nil _ _ ?_
    intro p hp heq
    have hsome := hout p hp
    rw [heq, hn] at hsome
    simp at hsome
  have hi : g.iter_in_edges node_id = [] := by
    show lookupEdges g.in_edges node_id = []
    refine lookupEdges_eq_nil _ _ ?_
    intro p hp heq
    have hsome := hin p hp
    rw [heq, hn] at hsome
    simp at hsome
  refine ⟨⟨ho, hi, ?_, ?_⟩, ?_⟩
  · unfold Graph.iter_children
    rw [ho]
    rfl
  · unfold Graph.iter_parents
    rw [hi]
    rfl
  · intro edge hsucc
    have hc : ¬ (lookupNode g.nodes edge.source.id = none
        ∨ lookupNode g.nodes edge.target.id = none) := by
      intro hcon
      unfold Graph.add_edge at hsucc
      rw [if_pos hcon] at hsucc
      simp at hsucc
    have hout1 : (g.add_edge edge).1.iter_out_edges edge.source.id
        = g.iter_out_edges edge.source.id ++ [edge] := by
      show (Graph.add_edge g edge).1.iter_out_edges edge.source.id = _
      unfold Graph.add_edge
      rw [if_neg hc]
      show lookupEdges (appendEdge g.out_edges edge.source.id edge) edge.source.id = _
      rw [lookupEdges_appendEdge, if_pos rfl]
      rfl
    have hin1 : (g.add_edge edge).1.iter_in_edges edge.target.id
        = g.iter_in_edges edge.target.id ++ [edge] := by
      show (Graph.add_edge g edge).1.iter_in_edges edge.target.id = _
      unfold Graph.add_edge
      rw [if_neg hc]
      show lookupEdges (appendEdge g.in_edges edge.target.id edge) edge.target.id = _
      rw [lookupEdges_appendEdge, if_pos rfl]
      rfl
    refine ⟨hout1, hin1, ?_⟩
    intro htype
    constructor
    · unfold Graph.iter_children
      rw [hout1, List.filter_append, List.map_append]
      have hone : ([edge].filter (fun e => e.type == EdgeType.parent_of)).map Edge.target
          = [edge.target] := by
        simp [htype]
      rw [hone]
    · unfold Graph.iter_parents
      rw [hin1, List.filter_append, List.map_append]
      have hone : ([edge].filter (fun e => e.type == EdgeType.parent_of)).map Edge.source
          = [edge.source] := by
        simp [htype]
      rw [hone]

/-- Witness for C8: an unknown id on a concrete graph, and a concrete
successful insertion read back at the end of the F1 sequences. -/
theorem read_paths_total_witness :
    (chainG.iter_out_edges "ghost" = [] ∧ chainG.iter_in_edges "ghost" = []
      ∧ chainG.iter_children "ghost" = [] ∧ chainG.iter_parents "ghost" = [])
    ∧ (chainG.add_edge (ParentOfEdge f1N f6N)).1.iter_out_edges "F1"
        = chainG.iter_out_edges "F1" ++ [ParentOfEdge f1N f6N]
    ∧ (chainG.add_edge (ParentOfEdge f1N f6N)).1.iter_children "F1"
        = chainG.iter_children "F1" ++ [f6N] := by
  obtain ⟨hempty, hord⟩ := read_paths_total chainG "ghost"
    (by unfold OutKeysStored; decide) (by unfold InKeysStored; decide) (by decide)
  obtain ⟨e1, e2, e3⟩ := hord (ParentOfEdge f1N f6N) (by decide)
  exact ⟨hempty, e1, (e3 rfl).1⟩

theorem visitParents_cons_mem (p : Node) (rest : List Node) (v : List String)
    (h : p.id ∈ v) : visitParents (p :: rest) v = visitParents rest v := by
  simp [visitParents, h]

theorem visitParents_cons_not_mem (p : Node) (rest : List Node) (v : List String)
    (h : p.id ∉ v) :
    visitParents (p :: rest) v =
      (p :: (visitParents rest (p.id :: v)).1,
       (visitParents rest (p.id :: v)).2.1,
       p.id :: (visitParents rest (p.id :: v)).2.2) := by
  simp [visitParents, h]

theorem visitParents_visited (ps : List Node) :
    ∀ v, (visitParents ps v).2.1 = (visitParents ps v).2.2.reverse ++ v := by
  induction ps with
  | nil => intro v; simp [visitParents]
  | cons p rest ih =>
      intro v
      by_cases h : p.id ∈ v
      · rw [visitParents_cons_mem p rest v h]
        exact ih v
      · rw [visitParents_cons_not_mem p rest v h]
        show (visitParents rest (p.id :: v)).2.1
            = (p.id :: (visitParents rest (p.id :: v)).2.2).reverse ++ v
        rw [ih (p.id :: v), List.reverse_cons, List.append_assoc]
        rfl

theorem visitParents_queue_ids (ps : List Node) :
    ∀ v, (visitParents ps v).2.2 = (visitParents ps v).1.map Node.id := by
  induction ps with
  | nil => intro v; simp [visitParents]
  | cons p rest ih =>
      intro v
      by_cases h : p.id ∈ v
      · rw [visitParents_cons_mem p rest v h]
        exact ih v
      · rw [visitParents_cons_not_mem p rest v h]
        show p.id :: (visitParents rest (p.id :: v)).2.2
            = (p :: (visitParents rest (p.id :: v)).1).map Node.id
        rw [List.map_cons, ih (p.id :: v)]

theorem visitParents_queue_not_mem (ps : List Node) :
    ∀ v x, x ∈ (visitParents ps v).2.2 → x ∉ v := by
  induction ps with
  | nil => intro v x hx; simp [visitParents] at hx
  | cons p rest ih =>
      intro v x hx
      by_cases h : p.id ∈ v
      · rw [visitParents_cons_mem p rest v h] at hx
        exact ih v x hx
      · rw [visitParents_cons_not_mem p rest v h] at hx
        rcases List.mem_cons.mp hx with hx | hx
        · subst hx; exact h
        · intro hv
          exact ih (p.id :: v) x hx (List.mem_cons_of_mem _ hv)

theorem visitParents_queue_nodup (ps : List Node) :
    ∀ v, (visitParents ps v).2.2.Nodup := by
  induction ps with
  | nil => intro v; simp [visitParents]
  | cons p rest ih =>
      intro v
      by_cases h : p.id ∈ v
      · rw [visitParents_cons_mem p rest v h]
        exact ih v
      · rw [visitParents_cons_not_mem p rest v h]
        refine List.nodup_cons.mpr ⟨?_, ih (p.id :: v)⟩
        intro hmem
        exact visitParents_queue_not_mem rest (p.id :: v) p.id hmem (List.mem_cons_self _ _)

theorem visitParents_queue_from (ps : List Node) :
    ∀ v x, x ∈ (visitParents ps v).2.2 → ∃ p ∈ ps, x = p.id := by
  induction ps with
  | nil => intro v x hx; simp [visitParents] at hx
  | cons p rest ih =>
      intro v x hx
      by_cases h : p.id ∈ v
      · rw [visitParents_cons_mem p rest v h] at hx
        obtain ⟨q, hq, hq2⟩ := ih v x hx
        exact ⟨q, List.mem_cons_of_mem _ hq, hq2⟩
      · rw [visitParents_cons_not_mem p rest v h] at hx
        rcases List.mem_cons.mp hx with hx | hx
        · exact ⟨p, List.mem_cons_self _ _, hx⟩
        · obtain ⟨q, hq, hq2⟩ := ih (p.id :: v) x hx
          exact ⟨q, List.mem_cons_of_mem _ hq, hq2⟩

theorem visitParents_yields_sub (ps : List Node) :
    ∀ v, (visitParents ps v).1 ⊆ ps := by
  induction ps with
  | nil => intro v; simp [visitParents]
  | cons p rest ih =>
      intro v
      by_cases h : p.id ∈ v
      · rw [visitParents_cons_mem p rest v h]
        exact (ih v).trans (List.subset_cons_self _ _)
      · rw [visitParents_cons_not_mem p rest v h]
        intro x hx
        rcases List.mem_cons.mp hx with hx | hx
        · subst hx; exact List.mem_cons_self _ _
        · exact List.mem_cons_of_mem _ (ih (p.id :: v) hx)

/-- Number of ids of the universe not yet in the visited set; together with
the queue length this bounds the remaining BFS iterations. -/
def countNew (univ visited : List String) : Nat :=
  (univ.filter (fun s => decide (s ∉ visited))).length

theorem countNew_nil (univ : List String) : countNew univ [] = univ.length := by
  simp [countNew]

theorem countNew_drop (U : List String) (qs v : List String)
    (hnd : qs.Nodup) (hin : ∀ x ∈ qs, x ∈ U) (hnv : ∀ x ∈ qs, x ∉ v) :
    countNew U (qs.reverse ++ v) + qs.length ≤ countNew U v := by
  have hfe : U.filter (fun s => decide (s ∉ qs.reverse ++ v))
      = (U.filter (fun s => decide (s ∉ v))).filter (fun s => decide (s ∉ qs)) := by
    rw [List.filter_filter]
    apply List.filter_congr
    intro a _
    by_cases h1 : a ∈ qs <;> by_cases h2 : a ∈ v <;>
      simp [h1, h2, List.mem_append, List.mem_reverse]
  have hsub : qs ⊆ (U.filter (fun s => decide (s ∉ v))).filter (fun s => decide (s ∈ qs)) := by
    intro x hx
    rw [List.mem_filter, List.mem_filter]
    exact ⟨⟨hin x hx, by simp [hnv x hx]⟩, by simp [hx]⟩
  have hlen : qs.length
      ≤ ((U.filter (fun s => decide (s ∉ v))).filter (fun s => decide (s ∈ qs))).length :=
    (hnd.subperm hsub).length_le
  have hpart : ((U.filter (fun s => decide (s ∉ v))).filter (fun s => decide (s ∈ qs))).length
      + ((U.filter (fun s => decide (s ∉ v))).filter (fun s => decide (s ∉ qs))).length
      = (U.filter (fun s => decide (s ∉ v))).length := by
    rw [← List.countP_eq_length_filter, ← List.countP_eq_length_filter,
        List.length_eq_countP_add_countP (fun s => decide (s ∈ qs))]
    congr 1
    apply List.countP_congr
    intro a _
    by_cases h1 : a ∈ qs <;> simp [h1]
  unfold countNew
  rw [hfe]
  omega

theorem bfsLoop_nilq (g : Graph) (f : Nat) (v : List String) : bfsLoop g f v [] = [] := by
  cases f <;> rfl

theorem bfsLoop_cons (g : Graph) (f : Nat) (v : List String) (cur : String)
    (rest : List String) :
    bfsLoop g (f + 1) v (cur :: rest) =
      (visitParents (g.iter_parents cur) v).1
        ++ bfsLoop g f (visitParents (g.iter_parents cur) v).2.1
            (rest ++ (visitParents (g.iter_parents cur) v).2.2) := rfl

theorem parent_id_mem_inSources (g : Graph) (cur : String) (p : Node)
    (h : p ∈ g.iter_parents cur) : p.id ∈ inSources g := by
  unfold Graph.iter_parents Graph.iter_in_edges at h
  obtain ⟨e, he, rfl⟩ := List.mem_map.mp h
  have he2 := List.mem_filter.mp he
  obtain ⟨q, hq, _, hq2⟩ := lookupEdges_mem_pair _ _ _ he2.1
  unfold inSources
  rw [List.mem_dedup]
  exact List.mem_map_of_mem _ (List.mem_flatMap.mpr ⟨q, hq, hq2⟩)

theorem bfsLoop_stable (g : Graph) : ∀ f1 f2 v q,
    countNew (inSources g) v + q.length ≤ f1 →
    countNew (inSources g) v + q.length ≤ f2 →
    bfsLoop g f1 v q = bfsLoop g f2 v q := by
  intro f1
  induction f1 with
  | zero =>
      intro f2 v q h1 h2
      have hq : q = [] := by
        cases q with
        | nil => rfl
        | cons a t => simp [List.length_cons] at h1
      subst hq
      rw [bfsLoop_nilq, bfsLoop_nilq]
  | succ k ih =>
      intro f2 v q h1 h2
      cases q with
      | nil => rw [bfsLoop_nilq, bfsLoop_nilq]
      | cons cur rest =>
          cases f2 with
          | zero =>
              exfalso
              simp [List.length_cons] at h2
          | succ m =>
              rw [bfsLoop_cons, bfsLoop_cons]
              congr 1
              have hvis : (visitParents (g.iter_parents cur) v).2.1
                  = (visitParents (g.iter_parents cur) v).2.2.reverse ++ v :=
                visitParents_visited _ _
              have hdrop : countNew (inSources g)
                    ((visitParents (g.iter_parents cur) v).2.2.reverse ++ v)
                  + (visitParents (g.iter_parents cur) v).2.2.length
                  ≤ countNew (inSources g) v := by
                refine countNew_drop _ _ _ (visitParents_queue_nodup _ _) ?_ ?_
                · intro x hx
                  obtain ⟨p, hp, rfl⟩ := visitParents_queue_from _ _ _ hx
                  exact parent_id_mem_inSources g cur p hp
                · intro x hx
                  exact visitParents_queue_not_mem _ _ _ hx
              rw [List.length_cons] at h1 h2
              apply ih
              · rw [hvis, List.length_append]
                omega
              · rw [hvis, List.length_append]
                omega

theorem bfsLoop_ids_nodup (g : Graph) : ∀ f v q,
    ((bfsLoop g f v q).map Node.id).Nodup
    ∧ ∀ x ∈ (bfsLoop g f v q).map Node.id, x ∉ v := by
  intro f
  induction f with
  | zero =>
      intro v q
      constructor
      · simp [bfsLoop]
      · intro x hx
        simp [bfsLoop] at hx
  | succ k ih =>
      intro v q
      cases q with
      | nil =>
          rw [bfsLoop_nilq]
          constructor
          · simp
          · intro x hx
            simp at hx
      | cons cur rest =>
          rw [bfsLoop_cons]
          have hids : ((visitParents (g.iter_parents cur) v).1).map Node.id
              = (visitParents (g.iter_parents cur) v).2.2 :=
            (visitParents_queue_ids _ _).symm
          obtain ⟨ihn, ihv⟩ :=
            ih (visitParents (g.iter_parents cur) v).2.1
              (rest ++ (visitParents (g.iter_parents cur) v).2.2)
          rw [List.map_append]
          constructor
          · refine List.Nodup.append ?_ ihn ?_
            · rw [hids]
              exact visitParents_queue_nodup _ _
            · intro a ha hb
              have h1 : a ∈ (visitParents (g.iter_parents cur) v).2.2 := by
                rw [← hids]; exact ha
              have h2 := ihv a hb
              rw [visitParents_visited] at h2
              exact h2 (List.mem_append.mpr (Or.inl (List.mem_reverse.mpr h1)))
          · intro x hx
            rcases List.mem_append.mp hx with hx | hx
            · have h1 : x ∈ (visitParents (g.iter_parents cur) v).2.2 := by
                rw [← hids]; exact hx
              exact visitParents_queue_not_mem _ _ _ h1
            · have h2 := ihv x hx
              rw [visitParents_visited] at h2
              intro hv
              exact h2 (List.mem_append.mpr (Or.inr hv))

theorem bfsLoop_mem_parents (g : Graph) : ∀ f v q x,
    x ∈ bfsLoop g f v q → ∃ cur, x ∈ g.iter_parents cur := by
  intro f
  induction f with
  | zero =>
      intro v q x hx
      simp [bfsLoop] at hx
  | succ k ih =>
      intro v q x hx
      cases q with
      | nil =>
          rw [bfsLoop_nilq] at hx
          simp at hx
      | cons cur rest =>
          rw [bfsLoop_cons] at hx
          rcases List.mem_append.mp hx with hx | hx
          · exact ⟨cur, visitParents_yields_sub _ _ hx⟩
          · exact ih _ _ x hx

/-- C7: the ancestor walk runs within its iteration budget on every graph
(so the Python loop terminates, cycles included), yields at most one node
per stored node, and yields nothing when the starting id is unknown. -/
theorem ancestors_terminate (g : Graph) (resource_id : String) (extra : Nat)
    (hsrc : ∀ p ∈ g.in_edges, ∀ e ∈ p.2, (lookupNode g.nodes e.source.id).isSome)
    (hinkeys : InKeysStored g) :
    bfsLoop g ((inSources g).length + 1 + extra) [] [resource_id]
        = g.iter_resource_hierarchy resource_id
    ∧ (g.iter_resource_hierarchy resource_id).length ≤ g.nodes.length
    ∧ (g.get_node resource_id = none → g.iter_resource_hierarchy resource_id = []) := by
  refine ⟨?_, ?_, ?_⟩
  · show bfsLoop g ((inSources g).length + 1 + extra) [] [resource_id]
      = bfsLoop g ((inSources g).length + 1) [] [resource_id]
    apply bfsLoop_stable <;>
      · simp only [countNew_nil, List.length_cons, List.length_nil]
        omega
  · have hnd := (bfsLoop_ids_nodup g ((inSources g).length + 1) [] [resource_id]).1
    have hsubset : ((g.iter_resource_hierarchy resource_id).map Node.id)
        ⊆ g.nodes.map Prod.fst := by
      intro x hx
      obtain ⟨n, hn, rfl⟩ := List.mem_map.mp hx
      obtain ⟨cur, hcur⟩ := bfsLoop_mem_parents g _ _ _ n hn
      unfold Graph.iter_parents Graph.iter_in_edges at hcur
      obtain ⟨e, he, rfl⟩ := List.mem_map.mp hcur
      have he2 := List.mem_filter.mp he
      obtain ⟨q, hq, _, hq2⟩ := lookupEdges_mem_pair _ _ _ he2.1
      exact lookupNode_isSome_mem _ _ (hsrc q hq e hq2)
    have hsp : ((g.iter_resource_hierarchy resource_id).map Node.id).Subperm
        (g.nodes.map Prod.fst) := List.Nodup.subperm hnd hsubset
    have := hsp.length_le
    rw [List.length_map, List.length_map] at this
    exact this
  · intro h
    have hn : lookupNode g.nodes resource_id = none := h
    have hpar : g.iter_parents resource_id = [] := by
      unfold Graph.iter_parents Graph.iter_in_edges
      rw [lookupEdges_eq_nil]
      · rfl
      · intro p hp heq
        have hsome := hinkeys p hp
        rw [heq, hn] at hsome
        simp at hsome
    show bfsLoop g ((inSources g).length + 1) [] [resource_id] = []
    rw [bfsLoop_cons, hpar]
    show ([] : List Node) ++ bfsLoop g (inSources g).length [] ([] ++ []) = []
    rw [List.nil_append, List.nil_append, bfsLoop_nilq]

/-- Witness for C7 on a concrete graph with an unknown starting id. -/
theorem ancestors_terminate_witness :
    bfsLoop chainG ((inSources chainG).length + 1 + 5) [] ["ghost"]
        = chainG.iter_resource_hierarchy "ghost"
    ∧ (chainG.iter_resource_hierarchy "ghost").length ≤ chainG.nodes.length
    ∧ chainG.iter_resource_hierarchy "ghost" = [] := by
  obtain ⟨a, b, c⟩ := ancestors_terminate chainG "ghost" 5 (by decide)
    (by unfold InKeysStored; decide)
  exact ⟨a, b, c (by decide)⟩

theorem flatMap_congr_mem {α β : Type} (l : List α) (f f2 : α → List β)
    (h : ∀ x ∈ l, f x = f2 x) : l.flatMap f = l.flatMap f2 := by
  induction l with
  | nil => rfl
  | cons a t ih =>
      rw [List.flatMap_cons, List.flatMap_cons, h a (List.mem_cons_self _ _),
        ih fun x hx => h x (List.mem_cons_of_mem _ hx)]

/-- Acyclicity of the PARENT_OF hierarchy, witnessed by a measure that
strictly drops along every PARENT_OF edge of the outgoing index. -/
def BucketMeasure (g : Graph) (mu : String → Nat) : Prop :=
  ∀ p ∈ g.out_edges, ∀ e ∈ p.2, e.type = EdgeType.parent_of → mu e.target.id < mu p.1

theorem iter_children_measure (g : Graph) (mu : String → Nat) (hmu : BucketMeasure g mu)
    (a : String) (c : Node) (hc : c ∈ g.iter_children a) : mu c.id < mu a := by
  unfold Graph.iter_children Graph.iter_out_edges at hc
  obtain ⟨e, he, rfl⟩ := List.mem_map.mp hc
  have he2 := List.mem_filter.mp he
  obtain ⟨q, hq, hq1, hq2⟩ := lookupEdges_mem_pair _ _ _ he2.1
  have htype : e.type = EdgeType.parent_of := by
    have hb := he2.2
    simpa using hb
  have hlt := hmu q hq e hq2 htype
  rw [hq1] at hlt
  exact hlt

theorem descendantsFuel_stable (g : Graph) (mu : String → Nat)
    (hmu : BucketMeasure g mu) :
    ∀ f1 f2 node_id, mu node_id < f1 → mu node_id < f2 →
      descendantsFuel g f1 node_id = descendantsFuel g f2 node_id := by
  intro f1
  induction f1 with
  | zero => intro f2 nid h1 h2; omega
  | succ k ih =>
      intro f2 nid h1 h2
      cases f2 with
      | zero => omega
      | succ m =>
          show (g.iter_children nid).flatMap (fun c => c :: descendantsFuel g k c.id)
            = (g.iter_children nid).flatMap (fun c => c :: descendantsFuel g m c.id)
          apply flatMap_congr_mem
          intro c hc
          have hcm := iter_children_measure g mu hmu nid c hc
          show c :: descendantsFuel g k c.id = c :: descendantsFuel g m c.id
          rw [ih m c.id (by omega) (by omega)]

/-- C4: on an acyclic hierarchy the descendant traversal satisfies the
pre-order unfolding: for each child in insertion order it yields the child
itself, then all of that child's own descendants, before the next child;
on the concrete tree it yields F1 before F5 and includes F2, three in all. -/
theorem descendants_preorder (g : Graph) (mu : String → Nat)
    (hmu : BucketMeasure g mu) (hb : ∀ s, mu s < g.nodes.length + 1) :
    (∀ node_id, g._iter_descendants node_id =
      (g.iter_children node_id).flatMap (fun c => c :: g._iter_descendants c.id))
    ∧ (treeG._iter_descendants "Org").map Node.id = ["F1", "F5", "F2"] := by
  constructor
  · intro nid
    show (g.iter_children nid).flatMap (fun c => c :: descendantsFuel g g.nodes.length c.id)
      = (g.iter_children nid).flatMap (fun c => c :: descendantsFuel g (g.nodes.length + 1) c.id)
    apply flatMap_congr_mem
    intro c hc
    have hcm := iter_children_measure g mu hmu nid c hc
    have hnid := hb nid
    show c :: descendantsFuel g g.nodes.length c.id
      = c :: descendantsFuel g (g.nodes.length + 1) c.id
    rw [descendantsFuel_stable g mu hmu g.nodes.length (g.nodes.length + 1) c.id
      (by omega) (by omega)]
  · decide

/-- A drop measure for the concrete tree. -/
def treeMeasure (s : String) : Nat :=
  if s = "Org" then 2 else if s = "F1" then 1 else 0

/-- Witness for C4: the unfolding at the concrete tree. -/
theorem descendants_preorder_witness :
    (treeG._iter_descendants "Org" =
      (treeG.iter_children "Org").flatMap (fun c => c :: treeG._iter_descendants c.id))
    ∧ (treeG._iter_descendants "Org").map Node.id = ["F1", "F5", "F2"] := by
  have hb : ∀ s, treeMeasure s < treeG.nodes.length + 1 := by
    intro s
    have h4 : treeG.nodes.length = 4 := by decide
    rw [h4]
    unfold treeMeasure
    split_ifs <;> omega
  have h := descendants_preorder treeG treeMeasure (by unfold BucketMeasure; decide) hb
  exact ⟨h.1 "Org", h.2⟩

theorem permLoop_cons (g : Graph) (e : Edge) (rest : List Edge) :
    permLoop g (e :: rest) =
      if e.type == EdgeType.has_role then
        match e.role with
        | some role =>
            match permLoop g rest with
            | Except.ok tail =>
                Except.ok
                  (({ resource_id := e.target.id,
                      resource_type := e.target.inner_type,
                      role := role }
                    :: (g._iter_descendants e.target.id).map
                        (fun d => { resource_id := d.id, resource_type := d.inner_type,
                                    role := role })) ++ tail)
            | Except.error err => Except.error err
        | none => Except.error GraphError.attributeError
      else permLoop g rest := rfl

theorem permLoop_closed (g : Graph) (edges : List Edge)
    (h : ∀ e ∈ edges, e.type = EdgeType.has_role → e.role.isSome) :
    permLoop g edges = Except.ok (edges.flatMap (fun e =>
      if e.type = EdgeType.has_role then
        match e.role with
        | some r =>
            { resource_id := e.target.id, resource_type := e.target.inner_type, role := r }
              :: (g._iter_descendants e.target.id).map
                  (fun d => { resource_id := d.id, resource_type := d.inner_type, role := r })
        | none => []
      else [])) := by
  induction edges with
  | nil => rfl
  | cons e rest ih =>
      have hrest := ih fun x hx hx2 => h x (List.mem_cons_of_mem _ hx) hx2
      rw [permLoop_cons, List.flatMap_cons]
      by_cases ht : e.type = EdgeType.has_role
      · have hb : (e.type == EdgeType.has_role) = true := by simp [ht]
        obtain ⟨r, hr2⟩ := Option.isSome_iff_exists.mp (h e (List.mem_cons_self _ _) ht)
        rw [if_pos hb, hr2, hrest, if_pos ht]
      · have hb : ¬ (e.type == EdgeType.has_role) = true := by simp [ht]
        rw [if_neg hb, if_neg ht, hrest, List.nil_append]

theorem permLoop_no_nodeNotFound (g : Graph) (edges : List Edge) (s : String) :
    permLoop g edges ≠ Except.error (GraphError.nodeNotFound s) := by
  induction edges with
  | nil =>
      intro h
      simp [permLoop] at h
  | cons e rest ih =>
      rw [permLoop_cons]
      by_cases ht : (e.type == EdgeType.has_role) = true
      · rw [if_pos ht]
        cases hrole : e.role with
        | none => simp
        | some r =>
            cases htail : permLoop g rest with
            | ok tail => simp
            | error err =>
                intro hcontra
                simp only [Except.error.injEq] at hcontra
                rw [hcontra] at htail
                exact ih htail
      · rw [if_neg ht]
        exact ih

theorem permLoop_skip_all (g : Graph) (edges : List Edge)
    (h : ∀ e ∈ edges, e.type ≠ EdgeType.has_role) : permLoop g edges = Except.ok [] := by
  induction edges with
  | nil => rfl
  | cons e rest ih =>
      rw [permLoop_cons]
      have hb : ¬ (e.type == EdgeType.has_role) = true := by
        simp [h e (List.mem_cons_self _ _)]
      rw [if_neg hb]
      exact ih fun x hx => h x (List.mem_cons_of_mem _ hx)

/-- C1: for an existing identity the permission resolution yields, per
outgoing HAS_ROLE edge in insertion order, first the direct entry for the
target resource and then one entry per descendant of that resource in the
pre-order of the descendant traversal, all carrying the role of the edge,
with no deduplication. -/
theorem user_permissions_structure (g : Graph) (node_identity_id : String) (u : Node)
    (hu : g.get_node node_identity_id = some u)
    (hr : ∀ e ∈ g.iter_out_edges node_identity_id,
      e.type = EdgeType.has_role → e.role.isSome) :
    g.iter_user_permissions node_identity_id = Except.ok
      ((g.iter_out_edges node_identity_id).flatMap (fun e =>
        if e.type = EdgeType.has_role then
          match e.role with
          | some r =>
              { resource_id := e.target.id, resource_type := e.target.inner_type, role := r }
                :: (g._iter_descendants e.target.id).map
                    (fun d => { resource_id := d.id, resource_type := d.inner_type, role := r })
          | none => []
        else [])) := by
  unfold Graph.iter_user_permissions
  rw [hu]
  exact permLoop_closed g _ hr

/-- Witness for C1 on the chain graph: the flatMap closed form at U, which
evaluates to the direct F1 entry followed by the inherited F5 and F6
entries, all with role OWNER. -/
theorem user_permissions_structure_witness :
    chainG.iter_user_permissions "U" = Except.ok
      ((chainG.iter_out_edges "U").flatMap (fun e =>
        if e.type = EdgeType.has_role then
          match e.role with
          | some r =>
              { resource_id := e.target.id, resource_type := e.target.inner_type, role := r }
                :: (chainG._iter_descendants e.target.id).map
                    (fun d => { resource_id := d.id, resource_type := d.inner_type, role := r })
          | none => []
        else [])) :=
  user_permissions_structure chainG "U" userN (by decide) (by decide)

/-- C5: permission resolution fails with the NotFound error exactly when
the identity id names no stored node; an existing identity without
HAS_ROLE edges yields the empty sequence. -/
theorem user_permissions_not_found_iff (g : Graph) (node_identity_id : String) :
    (g.iter_user_permissions node_identity_id
        = Except.error (GraphError.nodeNotFound node_identity_id)
      ↔ g.get_node node_identity_id = none)
    ∧ (g.get_node node_identity_id ≠ none →
        (∀ e ∈ g.iter_out_edges node_identity_id, e.type ≠ EdgeType.has_role) →
        g.iter_user_permissions node_identity_id = Except.ok []) := by
  constructor
  · constructor
    · intro h
      by_contra hne
      obtain ⟨u, hu⟩ := Option.ne_none_iff_exists'.mp hne
      unfold Graph.iter_user_permissions at h
      rw [hu] at h
      exact permLoop_no_nodeNotFound g _ _ h
    · intro h
      unfold Graph.iter_user_permissions
      rw [h]
  · intro hne hnorole
    obtain ⟨u, hu⟩ := Option.ne_none_iff_exists'.mp hne
    unfold Graph.iter_user_permissions
    rw [hu]
    exact permLoop_skip_all g _ hnorole

/-- Witness for C5: a missing identity raises NotFound, an identity with
only PARENT_OF edges yields the empty list. -/
theorem user_permissions_not_found_iff_witness :
    chainG.iter_user_permissions "ghost" = Except.error (GraphError.nodeNotFound "ghost")
    ∧ chainG.iter_user_permissions "Org" = Except.ok [] :=
  ⟨(user_permissions_not_found_iff chainG "ghost").1.mpr (by decide),
   (user_permissions_not_found_iff chainG "Org").2 (by decide) (by decide)⟩

/-- get_node in state-passing form: the returned Graph is the state of the
object when the method returns; the body contains no assignment, so it is
the received state. -/
def Graph.get_node_st (g : Graph) (node_id : String) : Option Node × Graph :=
  (lookupNode g.nodes node_id, g)

/-- iter_out_edges in state-passing form. -/
def Graph.iter_out_edges_st (g : Graph) (node_id : String) : List Edge × Graph :=
  (lookupEdges g.out_edges node_id, g)

/-- iter_in_edges in state-passing form. -/
def Graph.iter_in_edges_st (g : Graph) (node_id : String) : List Edge × Graph :=
  (lookupEdges g.in_edges node_id, g)

/-- iter_children in state-passing form, reading through iter_out_edges. -/
def Graph.iter_children_st (g : Graph) (node_id : String) : List Node × Graph :=
  let r := g.iter_out_edges_st node_id
  ((r.1.filter (fun e => e.type == EdgeType.parent_of)).map Edge.target, r.2)

/-- iter_parents in state-passing form, reading through iter_in_edges. -/
def Graph.iter_parents_st (g : Graph) (node_id : String) : List Node × Graph :=
  let r := g.iter_in_edges_st node_id
  ((r.1.filter (fun e => e.type == EdgeType.parent_of)).map Edge.source, r.2)

/-- _iter_descendants in state-passing form. -/
def Graph._iter_descendants_st (g : Graph) (node_id : String) : List Node × Graph :=
  (descendantsFuel g (g.nodes.length + 1) node_id, g)

/-- The BFS loop in state-passing form, threading the state through the
parent reads and the recursive call. -/
def bfsLoopSt : Nat → List String → List String → Graph → List Node × Graph
  | 0, _, _, g => ([], g)
  | fuel + 1, visited, queue, g =>
      match queue with
      | [] => ([], g)
      | current :: rest =>
          let pr := g.iter_parents_st current
          let r := visitParents pr.1 visited
          let rec2 := bfsLoopSt fuel r.2.1 (rest ++ r.2.2) pr.2
          (r.1 ++ rec2.1, rec2.2)

/-- iter_resource_hierarchy in state-passing form. -/
def Graph.iter_resource_hierarchy_st (g : Graph) (resource_id : String) :
    List Node × Graph :=
  bfsLoopSt ((inSources g).length + 1) [] [resource_id] g

/-- The permission loop in state-passing form, threading the state through
the descendant reads and the recursive call. -/
def permLoopSt : List Edge → Graph → Except GraphError (List PermissionEntry) × Graph
  | [], g => (Except.ok [], g)
  | edge :: rest, g =>
      if edge.type == EdgeType.has_role then
        match edge.role with
        | some role =>
            let d := g._iter_descendants_st edge.target.id
            let r := permLoopSt rest d.2
            (match r.1 with
             | Except.ok tail =>
                 Except.ok
                   (({ resource_id := edge.target.id,
                       resource_type := edge.target.inner_type,
                       role := role }
                     :: d.1.map (fun dd => { resource_id := dd.id,
                                             resource_type := dd.inner_type,
                                             role := role })) ++ tail)
             | Except.error err => Except.error err, r.2)
        | none => (Except.error GraphError.attributeError, g)
      else permLoopSt rest g

/-- iter_user_permissions in state-passing form. -/
def Graph.iter_user_permissions_st (g : Graph) (node_identity_id : String) :
    Except GraphError (List PermissionEntry) × Graph :=
  let n := g.get_node_st node_identity_id
  match n.1 with
  | none => (Except.error (GraphError.nodeNotFound node_identity_id), n.2)
  | some _ => permLoopSt (n.2.iter_out_edges node_identity_id) n.2

theorem bfsLoopSt_cons (g : Graph) (f : Nat) (v : List String) (cur : String)
    (rest : List String) :
    bfsLoopSt (f + 1) v (cur :: rest) g =
      ((visitParents (g.iter_parents cur) v).1
          ++ (bfsLoopSt f (visitParents (g.iter_parents cur) v).2.1
              (rest ++ (visitParents (g.iter_parents cur) v).2.2) g).1,
       (bfsLoopSt f (visitParents (g.iter_parents cur) v).2.1
          (rest ++ (visitParents (g.iter_parents cur) v).2.2) g).2) := rfl

theorem bfsLoopSt_eq (g : Graph) : ∀ f v q, bfsLoopSt f v q g = (bfsLoop g f v q, g) := by
  intro f
  induction f with
  | zero => intro v q; rfl
  | succ k ih =>
      intro v q
      cases q with
      | nil => rfl
      | cons cur rest =>
          rw [bfsLoopSt_cons, bfsLoop_cons, ih]

theorem permLoopSt_eq (g : Graph) : ∀ edges, permLoopSt edges g = (permLoop g edges, g) := by
  intro edges
  induction edges with
  | nil => rfl
  | cons e rest ih =>
      by_cases ht : (e.type == EdgeType.has_role) = true
      · cases hrole : e.role with
        | none => simp [permLoopSt, permLoop_cons, ht, hrole]
        | some r =>
            simp only [permLoopSt, permLoop_cons, ht, hrole, if_true,
              Graph._iter_descendants_st, ih]
            rfl
      · simp only [permLoopSt, permLoop_cons, ht, if_false, Bool.false_eq_true]
        exact ih

/-- C10: every read operation, run in state-passing form, returns the pure
reading of the graph together with an unchanged state: the node map and
both adjacency indexes after the call are exactly those before it. -/
theorem read_operations_pure (g : Graph) (node_id : String) :
    g.get_node_st node_id = (g.get_node node_id, g)
    ∧ g.iter_out_edges_st node_id = (g.iter_out_edges node_id, g)
    ∧ g.iter_in_edges_st node_id = (g.iter_in_edges node_id, g)
    ∧ g.iter_children_st node_id = (g.iter_children node_id, g)
    ∧ g.iter_parents_st node_id = (g.iter_parents node_id, g)
    ∧ g._iter_descendants_st node_id = (g._iter_descendants node_id, g)
    ∧ g.iter_resource_hierarchy_st node_id = (g.iter_resource_hierarchy node_id, g)
    ∧ g.iter_user_permissions_st node_id = (g.iter_user_permissions node_id, g) := by
  refine ⟨rfl, rfl, rfl, rfl, rfl, rfl, ?_, ?_⟩
  · exact bfsLoopSt_eq g ((inSources g).length + 1) [] [node_id]
  · cases hn : lookupNode g.nodes node_id with
    | none =>
        simp [Graph.iter_user_permissions_st, Graph.get_node_st, Graph.get_node,
          Graph.iter_user_permissions, hn]
    | some u =>
        simp [Graph.iter_user_permissions_st, Graph.get_node_st, Graph.get_node,
          Graph.iter_user_permissions, hn, permLoopSt_eq]

theorem visitParents_visited_mono (ps : List Node) (v : List String) (x : String)
    (h : x ∈ v) : x ∈ (visitParents ps v).2.1 := by
  rw [visitParents_visited]
  exact List.mem_append_right _ h

theorem visitParents_coverage (ps : List Node) :
    ∀ v p, p ∈ ps → p.id ∈ (visitParents ps v).2.1 := by
  induction ps with
  | nil => intro v p hp; simp at hp
  | cons p1 rest ih =>
      intro v p hp
      by_cases h : p1.id ∈ v
      · rw [visitParents_cons_mem p1 rest v h]
        rcases List.mem_cons.mp hp with hp | hp
        · subst hp
          exact visitParents_visited_mono rest v p.id h
        · exact ih v p hp
      · rw [visitParents_cons_not_mem p1 rest v h]
        rcases List.mem_cons.mp hp with hp | hp
        · subst hp
          exact visitParents_visited_mono rest (p.id :: v) p.id (List.mem_cons_self _ _)
        · exact ih (p1.id :: v) p hp

/-- One full BFS round: process every id of the queue in order against the
growing visited set, collecting all yields and all newly enqueued ids. -/
def expandQueue (g : Graph) : List String → List String → List Node × List String × List String
  | [], visited => ([], visited, [])
  | current :: rest, visited =>
      let r := visitParents (g.iter_parents current) visited
      let r2 := expandQueue g rest r.2.1
      (r.1 ++ r2.1, r2.2.1, r.2.2 ++ r2.2.2)

theorem expandQueue_cons (g : Graph) (cur : String) (rest : List String) (v : List String) :
    expandQueue g (cur :: rest) v =
      ((visitParents (g.iter_parents cur) v).1
          ++ (expandQueue g rest (visitParents (g.iter_parents cur) v).2.1).1,
       (expandQueue g rest (visitParents (g.iter_parents cur) v).2.1).2.1,
       (visitParents (g.iter_parents cur) v).2.2
          ++ (expandQueue g rest (visitParents (g.iter_parents cur) v).2.1).2.2) := rfl

theorem expandQueue_visited (g : Graph) (q : List String) :
    ∀ v, (expandQueue g q v).2.1 = (expandQueue g q v).2.2.reverse ++ v := by
  induction q with
  | nil => intro v; rfl
  | cons cur rest ih =>
      intro v
      rw [expandQueue_cons]
      show (expandQueue g rest (visitParents (g.iter_parents cur) v).2.1).2.1
        = ((visitParents (g.iter_parents cur) v).2.2
            ++ (expandQueue g rest (visitParents (g.iter_parents cur) v).2.1).2.2).reverse ++ v
      rw [ih, visitParents_visited, List.reverse_append, List.append_assoc]

theorem expandQueue_queue_ids (g : Graph) (q : List String) :
    ∀ v, (expandQueue g q v).2.2 = (expandQueue g q v).1.map Node.id := by
  induction q with
  | nil => intro v; rfl
  | cons cur rest ih =>
      intro v
      rw [expandQueue_cons]
      show (visitParents (g.iter_parents cur) v).2.2
          ++ (expandQueue g rest (visitParents (g.iter_parents cur) v).2.1).2.2
        = ((visitParents (g.iter_parents cur) v).1
            ++ (expandQueue g rest (visitParents (g.iter_parents cur) v).2.1).1).map Node.id
      rw [List.map_append, visitParents_queue_ids, ih]

theorem expandQueue_from (g : Graph) (q : List String) :
    ∀ v x, x ∈ (expandQueue g q v).2.2 →
      ∃ cur ∈ q, ∃ p ∈ g.iter_parents cur, x = p.id := by
  induction q with
  | nil => intro v x hx; simp [expandQueue] at hx
  | cons cur rest ih =>
      intro v x hx
      rw [expandQueue_cons] at hx
      rcases List.mem_append.mp hx with hx | hx
      · obtain ⟨p, hp, hp2⟩ := visitParents_queue_from _ _ _ hx
        exact ⟨cur, List.mem_cons_self _ _, p, hp, hp2⟩
      · obtain ⟨cur2, hcur2, p, hp, hp2⟩ := ih _ x hx
        exact ⟨cur2, List.mem_cons_of_mem _ hcur2, p, hp, hp2⟩

theorem expandQueue_visited_mono (g : Graph) (q : List String) :
    ∀ v x, x ∈ v → x ∈ (expandQueue g q v).2.1 := by
  induction q with
  | nil => intro v x hx; exact hx
  | cons cur rest ih =>
      intro v x hx
      rw [expandQueue_cons]
      exact ih _ x (visitParents_visited_mono _ _ _ hx)

theorem expandQueue_coverage (g : Graph) (q : List String) :
    ∀ v cur, cur ∈ q → ∀ p, p ∈ g.iter_parents cur →
      p.id ∈ (expandQueue g q v).2.1 := by
  induction q with
  | nil => intro v cur hcur; simp at hcur
  | cons cur1 rest ih =>
      intro v cur hcur p hp
      rw [expandQueue_cons]
      rcases List.mem_cons.mp hcur with hcur | hcur
      · subst hcur
        exact expandQueue_visited_mono g rest _ p.id
          (visitParents_coverage (g.iter_parents cur) v p hp)
      · exact ih _ cur hcur p hp

/-- The BFS loop with its canonical sufficient fuel. -/
def bfsRun (g : Graph) (visited queue : List String) : List Node :=
  bfsLoop g (countNew (inSources g) visited + queue.length) visited queue

theorem bfsRun_eq (g : Graph) (v q : List String) (f : Nat)
    (h : countNew (inSources g) v + q.length ≤ f) : bfsLoop g f v q = bfsRun g v q :=
  bfsLoop_stable g f (countNew (inSources g) v + q.length) v q h (le_refl _)

theorem hierarchy_eq_bfsRun (g : Graph) (start : String) :
    g.iter_resource_hierarchy start = bfsRun g [] [start] := by
  show bfsLoop g ((inSources g).length + 1) [] [start] = _
  apply bfsRun_eq
  simp only [countNew_nil, List.length_cons, List.length_nil]
  omega

theorem bfsRun_nilq (g : Graph) (v : List String) : bfsRun g v [] = [] :=
  bfsLoop_nilq g _ v

theorem bfsRun_cons (g : Graph) (v : List String) (cur : String) (rest : List String) :
    bfsRun g v (cur :: rest) =
      (visitParents (g.iter_parents cur) v).1
        ++ bfsRun g (visitParents (g.iter_parents cur) v).2.1
            (rest ++ (visitParents (g.iter_parents cur) v).2.2) := by
  have h1 : bfsRun g v (cur :: rest)
      = (visitParents (g.iter_parents cur) v).1
        ++ bfsLoop g (countNew (inSources g) v + rest.length)
            (visitParents (g.iter_parents cur) v).2.1
            (rest ++ (visitParents (g.iter_parents cur) v).2.2) := rfl
  rw [h1]
  congr 1
  apply bfsRun_eq
  have hdrop : countNew (inSources g)
        ((visitParents (g.iter_parents cur) v).2.2.reverse ++ v)
      + (visitParents (g.iter_parents cur) v).2.2.length
      ≤ countNew (inSources g) v := by
    refine countNew_drop _ _ _ (visitParents_queue_nodup _ _) ?_ ?_
    · intro x hx
      obtain ⟨p, hp, rfl⟩ := visitParents_queue_from _ _ _ hx
      exact parent_id_mem_inSources g cur p hp
    · intro x hx
      exact visitParents_queue_not_mem _ _ _ hx
  rw [visitParents_visited, List.length_append]
  omega

theorem bfsRun_round_general (g : Graph) : ∀ (q v extra : List String),
    bfsRun g v (q ++ extra) = (expandQueue g q v).1
      ++ bfsRun g (expandQueue g q v).2.1 (extra ++ (expandQueue g q v).2.2) := by
  intro q
  induction q with
  | nil =>
      intro v extra
      show bfsRun g v extra = [] ++ bfsRun g v (extra ++ [])
      rw [List.nil_append, List.append_nil]
  | cons cur rest ih =>
      intro v extra
      show bfsRun g v (cur :: (rest ++ extra)) = _
      rw [bfsRun_cons, List.append_assoc, ih (visitParents (g.iter_parents cur) v).2.1
        (extra ++ (visitParents (g.iter_parents cur) v).2.2)]
      rw [expandQueue_cons]
      show (visitParents (g.iter_parents cur) v).1
          ++ ((expandQueue g rest (visitParents (g.iter_parents cur) v).2.1).1
            ++ bfsRun g (expandQueue g rest (visitParents (g.iter_parents cur) v).2.1).2.1
              ((extra ++ (visitParents (g.iter_parents cur) v).2.2)
                ++ (expandQueue g rest (visitParents (g.iter_parents cur) v).2.1).2.2))
        = ((visitParents (g.iter_parents cur) v).1
            ++ (expandQueue g rest (visitParents (g.iter_parents cur) v).2.1).1)
          ++ bfsRun g (expandQueue g rest (visitParents (g.iter_parents cur) v).2.1).2.1
            (extra ++ ((visitParents (g.iter_parents cur) v).2.2
              ++ (expandQueue g rest (visitParents (g.iter_parents cur) v).2.1).2.2))
      rw [List.append_assoc, List.append_assoc]

theorem bfsRun_round (g : Graph) (v q : List String) :
    bfsRun g v q = (expandQueue g q v).1
      ++ bfsRun g (expandQueue g q v).2.1 (expandQueue g q v).2.2 := by
  have h := bfsRun_round_general g q v []
  rw [List.append_nil] at h
  rw [h, List.nil_append]

/-- The (visited, frontier) pair after k full BFS rounds started at the
given id. -/
def roundState (g : Graph) (start : String) : Nat → List String × List String
  | 0 => ([], [start])
  | k + 1 =>
      ((expandQueue g (roundState g start k).2 (roundState g start k).1).2.1,
       (expandQueue g (roundState g start k).2 (roundState g start k).1).2.2)

/-- The nodes yielded in round k. -/
def roundYield (g : Graph) (start : String) (k : Nat) : List Node :=
  (expandQueue g (roundState g start k).2 (roundState g start k).1).1

theorem hierarchy_round_decomp (g : Graph) (start : String) : ∀ k : Nat,
    g.iter_resource_hierarchy start
      = (List.range k).flatMap (roundYield g start)
        ++ bfsRun g (roundState g start k).1 (roundState g start k).2 := by
  intro k
  induction k with
  | zero =>
      rw [hierarchy_eq_bfsRun]
      rfl
  | succ k ih =>
      rw [ih, bfsRun_round g (roundState g start k).1 (roundState g start k).2]
      rw [List.range_succ, List.flatMap_append]
      show _ = ((List.range k).flatMap (roundYield g start)
          ++ (roundYield g start k ++ []))
        ++ bfsRun g (roundState g start (k + 1)).1 (roundState g start (k + 1)).2
      rw [List.append_nil, List.append_assoc]
      rfl

/-- An upward PARENT_OF path: the node is reached from the starting id by
following iter_parents the given number of times (so it is an ancestor). -/
inductive UpPath (g : Graph) (start : String) : Node → Nat → Prop
  | single (p : Node) : p ∈ g.iter_parents start → UpPath g start p 1
  | step (q p : Node) (k : Nat) :
      UpPath g start q k → p ∈ g.iter_parents q.id → UpPath g start p (k + 1)

/-- The id is an ancestor of the starting id reachable within k upward
PARENT_OF steps. -/
def WithinLe (g : Graph) (start x : String) (k : Nat) : Prop :=
  ∃ p j, UpPath g start p j ∧ j ≤ k ∧ p.id = x

theorem roundState_frontier_sound (g : Graph) (start : String) :
    ∀ k x, x ∈ (roundState g start k).2 →
      (k = 0 ∧ x = start) ∨ ∃ p, UpPath g start p k ∧ p.id = x := by
  intro k
  induction k with
  | zero =>
      intro x hx
      left
      exact ⟨rfl, by simpa [roundState] using hx⟩
  | succ k ih =>
      intro x hx
      right
      have hx2 : x ∈ (expandQueue g (roundState g start k).2 (roundState g start k).1).2.2 := hx
      obtain ⟨cur, hcur, p, hp, rfl⟩ := expandQueue_from g _ _ x hx2
      rcases ih cur hcur with ⟨hk0, hstart⟩ | ⟨q, hq, hqid⟩
      · subst hk0
        subst hstart
        exact ⟨p, UpPath.single p hp, rfl⟩
      · subst hqid
        exact ⟨p, UpPath.step q p k hq hp, rfl⟩

theorem roundYield_sound (g : Graph) (start : String) (k : Nat) :
    ∀ n ∈ roundYield g start k, ∃ p, UpPath g start p (k + 1) ∧ p.id = n.id := by
  intro n hn
  have hmem : n.id ∈ (roundState g start (k + 1)).2 := by
    show n.id ∈ (expandQueue g (roundState g start k).2 (roundState g start k).1).2.2
    rw [expandQueue_queue_ids]
    exact List.mem_map_of_mem _ hn
  rcases roundState_frontier_sound g start (k + 1) n.id hmem with ⟨h0, _⟩ | h
  · exact absurd h0 (Nat.succ_ne_zero k)
  · exact h

theorem roundState_visited_succ (g : Graph) (start : String) (k : Nat) :
    (roundState g start (k + 1)).1
      = (roundState g start (k + 1)).2.reverse ++ (roundState g start k).1 := by
  show (expandQueue g (roundState g start k).2 (roundState g start k).1).2.1 = _
  rw [expandQueue_visited]
  rfl

theorem roundState_visited_mono (g : Graph) (start : String) (k : Nat) (x : String)
    (h : x ∈ (roundState g start k).1) : x ∈ (roundState g start (k + 1)).1 := by
  rw [roundState_visited_succ]
  exact List.mem_append_right _ h

theorem roundState_visited_le (g : Graph) (start : String) :
    ∀ k m, k ≤ m → ∀ x, x ∈ (roundState g start k).1 → x ∈ (roundState g start m).1 := by
  intro k m h
  induction h with
  | refl => intro x hx; exact hx
  | step h2 ih =>
      intro x hx
      exact roundState_visited_mono g start _ x (ih x hx)

theorem roundPV (g : Graph) (start : String) :
    ∀ k x, x ∈ (roundState g start k).1 →
      ∀ p, p ∈ g.iter_parents x → p.id ∈ (roundState g start (k + 1)).1 := by
  intro k
  induction k with
  | zero => intro x hx; simp [roundState] at hx
  | succ k ih =>
      intro x hx p hp
      rw [roundState_visited_succ] at hx
      rcases List.mem_append.mp hx with hx | hx
      · rw [List.mem_reverse] at hx
        show p.id ∈
          (expandQueue g (roundState g start (k + 1)).2 (roundState g start (k + 1)).1).2.1
        exact expandQueue_coverage g _ _ x hx p hp
      · exact roundState_visited_mono g start (k + 1) p.id (ih x hx p hp)

theorem upPath_in_visited (g : Graph) (start : String) :
    ∀ (p : Node) (k : Nat), UpPath g start p k → p.id ∈ (roundState g start k).1 := by
  intro p k h
  induction h with
  | single p2 hp =>
      show p2.id ∈ (expandQueue g (roundState g start 0).2 (roundState g start 0).1).2.1
      exact expandQueue_coverage g _ _ start (by simp [roundState]) p2 hp
  | step q p2 k hq hp ih =>
      exact roundPV g start k q.id ih p2 hp

theorem visited_sub_yields (g : Graph) (start : String) :
    ∀ k x, x ∈ (roundState g start k).1 →
      x ∈ ((List.range k).flatMap (roundYield g start)).map Node.id := by
  intro k
  induction k with
  | zero => intro x hx; simp [roundState] at hx
  | succ k ih =>
      intro x hx
      rw [roundState_visited_succ] at hx
      rw [List.range_succ, List.flatMap_append, List.map_append]
      rcases List.mem_append.mp hx with hx | hx
      · rw [List.mem_reverse] at hx
        apply List.mem_append_right
        have hq : (roundState g start (k + 1)).2 = (roundYield g start k).map Node.id := by
          show (expandQueue g (roundState g start k).2 (roundState g start k).1).2.2 = _
          exact expandQueue_queue_ids g _ _
        rw [hq] at hx
        simpa using hx
      · exact List.mem_append_left _ (ih x hx)

theorem hierarchy_complete (g : Graph) (start : String) (p : Node) (k : Nat)
    (h : UpPath g start p k) :
    p.id ∈ (g.iter_resource_hierarchy start).map Node.id := by
  have h1 := upPath_in_visited g start p k h
  have h2 := visited_sub_yields g start k p.id h1
  rw [hierarchy_round_decomp g start k, List.map_append]
  exact List.mem_append_left _ h2

theorem bfsLoop_sound (g : Graph) (start : String) : ∀ f v q,
    (∀ x ∈ q, x = start ∨ ∃ p k, UpPath g start p k ∧ p.id = x) →
    ∀ n ∈ bfsLoop g f v q, ∃ k, UpPath g start n k := by
  intro f
  induction f with
  | zero => intro v q hq n hn; simp [bfsLoop] at hn
  | succ f ih =>
      intro v q hq n hn
      cases q with
      | nil =>
          rw [bfsLoop_nilq] at hn
          simp at hn
      | cons cur rest =>
          rw [bfsLoop_cons] at hn
          have hanc : ∀ m, m ∈ g.iter_parents cur → ∃ k, UpPath g start m k := by
            intro m hm
            rcases hq cur (List.mem_cons_self _ _) with hc | ⟨p, k, hp, hpid⟩
            · subst hc
              exact ⟨1, UpPath.single m hm⟩
            · rw [← hpid] at hm
              exact ⟨k + 1, UpPath.step p m k hp hm⟩
          rcases List.mem_append.mp hn with hn | hn
          · exact hanc n (visitParents_yields_sub _ _ hn)
          · refine ih _ _ ?_ n hn
            intro x hx
            rcases List.mem_append.mp hx with hx | hx
            · exact hq x (List.mem_cons_of_mem _ hx)
            · obtain ⟨p, hp, rfl⟩ := visitParents_queue_from _ _ _ hx
              obtain ⟨k, hk⟩ := hanc p hp
              exact Or.inr ⟨p, k, hk, rfl⟩

theorem hierarchy_sound (g : Graph) (start : String) :
    ∀ n ∈ g.iter_resource_hierarchy start, ∃ k, UpPath g start n k := by
  intro n hn
  refine bfsLoop_sound g start ((inSources g).length + 1) [] [start] ?_ n hn
  intro x hx
  left
  simpa using hx

theorem hierarchy_levels (g : Graph) (start : String) (k : Nat) :
    ∃ A B, g.iter_resource_hierarchy start = A ++ B
      ∧ (∀ n ∈ A, WithinLe g start n.id k)
      ∧ (∀ n ∈ B, ¬ WithinLe g start n.id k) := by
  refine ⟨(List.range k).flatMap (roundYield g start),
    bfsRun g (roundState g start k).1 (roundState g start k).2,
    hierarchy_round_decomp g start k, ?_, ?_⟩
  · intro n hn
    rw [List.mem_flatMap] at hn
    obtain ⟨i, hi, hni⟩ := hn
    obtain ⟨p, hp, hpid⟩ := roundYield_sound g start i n hni
    rw [List.mem_range] at hi
    exact ⟨p, i + 1, hp, by omega, hpid⟩
  · intro n hn hw
    obtain ⟨p, j, hp, hj, hpid⟩ := hw
    have h1 : p.id ∈ (roundState g start k).1 :=
      roundState_visited_le g start j k hj p.id (upPath_in_visited g start p j hp)
    have hmem : n.id ∈ (bfsLoop g (countNew (inSources g) (roundState g start k).1
        + (roundState g start k).2.length) (roundState g start k).1
        (roundState g start k).2).map Node.id := List.mem_map_of_mem _ hn
    have h2 := (bfsLoop_ids_nodup g _ _ _).2 n.id hmem
    rw [hpid] at h1
    exact h2 h1

/-- C2: the ancestor walk yields each ancestor of the starting resource
exactly once, in BFS discovery order: every yielded node is an ancestor
(soundness), every ancestor id is yielded (completeness), no id is yielded
twice, and for every depth bound k the output splits into a prefix of
exactly the ancestors within k upward steps followed by the strictly
farther ones (nearest ancestors first, so immediate parents precede
grandparents); concretely the chain gives [F5, F1, Org] and a converging
grandparent is yielded once. -/
theorem ancestors_bfs_contract :
    (chainG.iter_resource_hierarchy "F6").map Node.id = ["F5", "F1", "Org"]
    ∧ ((diamondG.iter_resource_hierarchy "X").map Node.id).count "GP" = 1
    ∧ (∀ (g : Graph) (resource_id : String),
        ((g.iter_resource_hierarchy resource_id).map Node.id).Nodup)
    ∧ (∀ (g : Graph) (resource_id : String),
        ∀ n ∈ g.iter_resource_hierarchy resource_id, ∃ k, UpPath g resource_id n k)
    ∧ (∀ (g : Graph) (resource_id : String) (p : Node) (k : Nat),
        UpPath g resource_id p k →
        p.id ∈ (g.iter_resource_hierarchy resource_id).map Node.id)
    ∧ (∀ (g : Graph) (resource_id : String) (k : Nat),
        ∃ A B, g.iter_resource_hierarchy resource_id = A ++ B
          ∧ (∀ n ∈ A, WithinLe g resource_id n.id k)
          ∧ (∀ n ∈ B, ¬ WithinLe g resource_id n.id k)) := by
  refine ⟨by decide, by decide, ?_, ?_, ?_, ?_⟩
  · intro g resource_id
    exact (bfsLoop_ids_nodup g ((inSources g).length + 1) [] [resource_id]).1
  · intro g resource_id
    exact hierarchy_sound g resource_id
  · intro g resource_id p k h
    exact hierarchy_complete g resource_id p k h
  · intro g resource_id k
    exact hierarchy_levels g resource_id k

/-- Witness for C2: completeness applied to the concrete one-step ancestor
F5 of F6 in the chain graph. -/
theorem ancestors_bfs_contract_witness :
    f5N.id ∈ (chainG.iter_resource_hierarchy "F6").map Node.id :=
  ancestors_bfs_contract.2.2.2.2.1 chainG "F6" f5N 1 (UpPath.single f5N (by decide))
